import Mathlib

/-!
Shallow embedding of the natural-language task parser of the Taskflow
backend (`src/routes/tasks.py`: `parse_natural_language` and
`get_next_weekday`), together with theorems settling the frozen claims
about it.

Modelling conventions:
* Python strings are `List Char`; `str s` converts a Lean string literal.
* The regex character class `\w` is modelled as ASCII alphanumeric or
  underscore, and Python's whitespace as `Char.isWhitespace`.
* Python's ambient `datetime.now().date()` is the explicit `ref : Date`
  parameter (the spec's injectable reference date); a single call reads
  the clock several times, always on the same calendar date `ref`.
* Fallible Python operations (`date.replace` raising `ValueError`,
  calling a lambda with the wrong number of arguments raising
  `TypeError`, `list.index` raising `ValueError`) return `Option`
  values; the bare `except: pass` around a date rule corresponds to the
  `none` branch.
-/

namespace Taskflow

def str (s : String) : List Char := s.toList

/-- Word character, the class `\w`: letter, digit or underscore. -/
def isWordChar (c : Char) : Bool := c.isAlphanum || c == '_'

def isSpaceChar (c : Char) : Bool := c.isWhitespace

/-- Python `str.strip()`: drop leading and trailing whitespace. -/
def stripWS (l : List Char) : List Char :=
  ((l.dropWhile isSpaceChar).reverse.dropWhile isSpaceChar).reverse

/-- Python `str.lower()` on a string. -/
def lowerStr (l : List Char) : List Char := l.map Char.toLower

/-- Case-insensitive character comparison (re.IGNORECASE). -/
def ciEq (a b : Char) : Bool := a.toLower == b.toLower

/-- Case-insensitive test that the first list starts the second. -/
def ciPrefixB : List Char → List Char → Bool
  | [], _ => true
  | _ :: _, [] => false
  | a :: w, c :: s => ciEq a c && ciPrefixB w s

/-- Case-sensitive test that the first list starts the second
(Python `str.startswith`, used for substring containment). -/
def prefixB : List Char → List Char → Bool
  | [], _ => true
  | _ :: _, [] => false
  | a :: w, c :: s => a == c && prefixB w s

/-- Test for `\b` on the left of a match: start of string or previous
char not a word char. -/
def boundaryB : Option Char → Bool
  | none => true
  | some c => !isWordChar c

/-- First char of the remaining text, if any, is a word char. -/
def headIsWord : List Char → Bool
  | [] => false
  | c :: _ => isWordChar c

/-- Test for `\b` on the right of a match: end of string or next char
not a word char. -/
def afterBoundaryB (s : List Char) : Bool := !headIsWord s

/-- Try to match `\b(alt1|alt2|...)\b` (case-insensitively) at the
current position, given the char just before the position; returns the
alternative that matched (regex alternation tries them in order). -/
def wordAt (alts : List (List Char)) (prev : Option Char) (s : List Char) :
    Option (List Char) :=
  alts.find? fun w => ciPrefixB w s && boundaryB prev && afterBoundaryB (s.drop w.length)

/-- Model of `re.search(r'\b(alt1|alt2|...)\b', text, re.IGNORECASE)`:
leftmost position, and at each position the first alternative that
matches; returns the matched alternative (the capture group,
case-normalised, which is all `get_next_weekday` ever reads after
lowering it). -/
def searchWord (alts : List (List Char)) : Option Char → List Char → Option (List Char)
  | _, [] => none
  | prev, c :: s =>
    match wordAt alts prev (c :: s) with
    | some w => some w
    | none => searchWord alts (some c) s

/-- Model of `re.sub(r'\b(alt1|...)\b', '', text, flags=re.IGNORECASE)`:
remove every non-overlapping match, scanning left to right.  The `skip`
counter consumes the remaining characters of a match that has just
begun; the `prev` character feeds the `\b` test of the next position. -/
def subWordAux (alts : List (List Char)) : Option Char → Nat → List Char → List Char
  | _, _, [] => []
  | _, skip+1, c :: s => subWordAux alts (some c) skip s
  | prev, 0, c :: s =>
    match wordAt alts prev (c :: s) with
    | some w =>
      if w.isEmpty then c :: subWordAux alts (some c) 0 s
      else subWordAux alts (some c) (w.length - 1) s
    | none => c :: subWordAux alts (some c) 0 s

def subWord (alts : List (List Char)) (s : List Char) : List Char :=
  subWordAux alts none 0 s

/-- Model of `re.findall(r'#(\w+)', text)`: collect the word part of
every hashtag, left to right, duplicates kept.  `st = some acc` means
the scan is inside the word part of a tag, `acc` holding its chars in
reverse; the scan only enters that state when at least one word char
follows the hash. -/
def findTagsAux : Option (List Char) → List Char → List (List Char)
  | none, [] => []
  | some acc, [] => [acc.reverse]
  | none, c :: s =>
    if c == '#' && headIsWord s then findTagsAux (some []) s
    else findTagsAux none s
  | some acc, c :: s =>
    if isWordChar c then findTagsAux (some (c :: acc)) s
    else acc.reverse ::
      (if c == '#' && headIsWord s then findTagsAux (some []) s
       else findTagsAux none s)

def findTags (s : List Char) : List (List Char) := findTagsAux none s

/-- Model of `re.sub(r'#\w+', '', title)`: drop every hashtag together
with its word part.  `inRun = true` means the scan is inside the word
part being dropped. -/
def subTagsAux : Bool → List Char → List Char
  | _, [] => []
  | false, c :: s =>
    if c == '#' && headIsWord s then subTagsAux true s
    else c :: subTagsAux false s
  | true, c :: s =>
    if isWordChar c then subTagsAux true s
    else if c == '#' && headIsWord s then subTagsAux true s
    else c :: subTagsAux false s

def subTags (s : List Char) : List Char := subTagsAux false s

/-- Python `pat in text` (substring containment). -/
def containsSub (pat : List Char) : List Char → Bool
  | [] => pat.isEmpty
  | c :: s => prefixB pat (c :: s) || containsSub pat s

/-- Python `text.replace(pat, '')`: remove every non-overlapping
occurrence, scanning left to right.  `skip` consumes the rest of an
occurrence that has just begun. -/
def replaceAllAux (pat : List Char) : Nat → List Char → List Char
  | _, [] => []
  | skip+1, _ :: s => replaceAllAux pat skip s
  | 0, c :: s =>
    if prefixB pat (c :: s) && !pat.isEmpty then
      replaceAllAux pat (pat.length - 1) s
    else c :: replaceAllAux pat 0 s

def replaceAll (pat s : List Char) : List Char := replaceAllAux pat 0 s

def bang2 : List Char := ['!', '!']
def bang3 : List Char := ['!', '!', '!']

/-! ### Calendar model (Python `datetime.date`) -/

structure Date where
  year : Nat
  month : Nat
  day : Nat
deriving DecidableEq

def isLeap (y : Nat) : Bool := y % 4 == 0 && (y % 100 != 0 || y % 400 == 0)

def daysInMonth (y m : Nat) : Nat :=
  if m = 2 then (if isLeap y then 29 else 28)
  else if m = 4 ∨ m = 6 ∨ m = 9 ∨ m = 11 then 30
  else 31

def daysBeforeMonth (y m : Nat) : Nat :=
  (List.range (m - 1)).foldl (fun acc i => acc + daysInMonth y (i + 1)) 0

/-- Python `date.toordinal()`: day 1 is 0001-01-01 (a Monday) in the
proleptic Gregorian calendar. -/
def toordinal (d : Date) : Nat :=
  365 * (d.year - 1) + (d.year - 1) / 4 - (d.year - 1) / 100 + (d.year - 1) / 400
    + daysBeforeMonth d.year d.month + d.day

/-- Python `date.weekday()`: Monday is 0, Sunday is 6. -/
def pyWeekday (d : Date) : Nat := (toordinal d + 6) % 7

/-- Python `date.replace(day=n)`: raises `ValueError` (here `none`) when
`n` is not a valid day of the date's month. -/
def dateReplaceDay (d : Date) (n : Nat) : Option Date :=
  if 1 ≤ n ∧ n ≤ daysInMonth d.year d.month then some ⟨d.year, d.month, n⟩
  else none

/-! ### The date rules of `parse_natural_language` -/

def weekdayNames : List (List Char) :=
  [str "monday", str "tuesday", str "wednesday", str "thursday",
   str "friday", str "saturday", str "sunday"]

/-- Embeds `get_next_weekday(day_name)` from the source: `days.index`
would raise on an unknown name (`none`); `date.replace(day=today.day +
days_ahead)` raises past the end of the month (`none`). -/
def get_next_weekday (ref : Date) (day_name : List Char) : Option Date :=
  match weekdayNames.findIdx? (· == lowerStr day_name) with
  | none => none
  | some target_weekday =>
    let today_weekday : Int := pyWeekday ref
    let days_ahead : Int := target_weekday - today_weekday
    let days_ahead := if days_ahead ≤ 0 then days_ahead + 7 else days_ahead
    dateReplaceDay ref (ref.day + days_ahead.toNat)

/-- A date handler as written in the source: some lambdas take no
parameters, the weekday one takes the regex match object. -/
inductive DateFunc where
  | noArg (f : Date → Option Date)
  | withMatch (f : Date → List Char → Option Date)

/-- Python `callable(date_func)`: true for every lambda. -/
def pyCallable (_ : DateFunc) : Bool := true

/-- Calling `date_func()`: a lambda that requires a `match` argument
raises `TypeError` when called with no arguments (hence `none`). -/
def DateFunc.callNoArgs : DateFunc → Date → Option Date
  | .noArg f, ref => f ref
  | .withMatch _, _ => none

/-- Calling `date_func(match)`: a zero-parameter lambda raises
`TypeError` when called with an argument (hence `none`). -/
def DateFunc.callWithMatch : DateFunc → Date → List Char → Option Date
  | .noArg _, _, _ => none
  | .withMatch f, ref, m => f ref m

def todayF : DateFunc := .noArg fun ref => some ref

/-- Embeds `lambda: datetime.now().date().replace(day=datetime.now().day + 1)`. -/
def tomorrowF : DateFunc := .noArg fun ref => dateReplaceDay ref (ref.day + 1)

def weekdayF : DateFunc := .withMatch fun ref m => get_next_weekday ref m

def date_patterns : List (List (List Char) × DateFunc) :=
  [([str "today"], todayF), ([str "tomorrow"], tomorrowF), (weekdayNames, weekdayF)]

/-! ### The parser -/

structure ParseResult where
  title : List Char
  due_date : Option Date := none
  priority : Option Nat := none
  tags : Option (List (List Char)) := none
deriving DecidableEq

/-- The `for pattern, date_func in date_patterns` loop: on the first
rule whose pattern matches AND whose `date_func` call does not raise,
set `due_date`, substitute the pattern away and `break`; a rule whose
call raises is skipped (`except: pass`) leaving the title untouched. -/
def runDateRules (ref : Date) (text : List Char) :
    List (List (List Char) × DateFunc) → Option Date × List Char
  | [] => (none, stripWS text)
  | (alts, f) :: rest =>
    match searchWord alts none text with
    | none => runDateRules ref text rest
    | some m =>
      match (if pyCallable f then f.callNoArgs ref else f.callWithMatch ref m) with
      | some d => (some d, stripWS (subWord alts text))
      | none => runDateRules ref text rest

/-- The tag section of the source: `re.findall` reads the ORIGINAL
`text`, the removal is applied to the working title. -/
def stage2Title (text t1 : List Char) : List Char :=
  if (findTags text).isEmpty then t1 else stripWS (subTags t1)

/-- The priority section of the source: `'!!!' in text` and
`'!!' in text` read the ORIGINAL `text`, the `str.replace` removals are
applied to the working title. -/
def stage3Title (text t2 : List Char) : List Char :=
  if containsSub bang3 text then stripWS (replaceAll bang3 t2)
  else if containsSub bang2 text then stripWS (replaceAll bang2 t2)
  else t2

/-- Embeds `parse_natural_language(text)` with the ambient current date
made explicit as `ref`. -/
def parse_natural_language (ref : Date) (text : List Char) : ParseResult :=
  let dateRes := runDateRules ref text date_patterns
  { title := stage3Title text (stage2Title text dateRes.2)
    due_date := dateRes.1
    priority :=
      if containsSub bang3 text then some 3
      else if containsSub bang2 text then some 2
      else none
    tags := if (findTags text).isEmpty then none else some (findTags text) }

def refFri : Date := ⟨2024, 3, 15⟩

/-- Count of leading occurrences of a char (used to reason about
removal of a run marker such as `!!` or `!!!`). -/
def leadCount (c : Char) : List Char → Nat
  | [] => 0
  | a :: s => if a == c then leadCount c s + 1 else 0

/-- Bool test that an alternative's first char is not confusable with a
whitespace char under case-insensitive comparison. -/
def altHeadOkWS (w : List Char) : Bool :=
  match w with
  | [] => false
  | d :: _ => !(ciEq d ' ' || ciEq d '\t' || ciEq d '\r' || ciEq d '\n')

/-- The char just before the current scan position after skipping the
chars of `l`: the last char of `l`, or the previous `p` when `l` is
empty. -/
def prevAfter (p : Option Char) (l : List Char) : Option Char :=
  match l.getLast? with
  | some y => some y
  | none => p

/-- Test that a pattern alternative is a nonempty string of lowercase
word characters (true of `today`, `tomorrow` and every weekday name). -/
def lowerWordStr (w : List Char) : Bool :=
  !w.isEmpty && w.all fun ch => isWordChar ch && (ch.toLower == ch)

def altsLowerWord (alts : List (List Char)) : Bool := alts.all lowerWordStr

/-- Test that no position of the text starts a hashtag match (a hash
char immediately followed by a word char). -/
def noHashWord : List Char → Bool
  | [] => true
  | c :: s => !(c == '#' && headIsWord s) && noHashWord s

/-- Specification-side summary of the date-rule loop, following the
spec's first-match-wins wording: the first rule (in list order) whose
pattern matches the text and whose handler call succeeds, together with
the date it computes. -/
def firstMatchingRule (ref : Date) (text : List Char) :
    List (List (List Char) × DateFunc) → Option (List (List Char) × Date)
  | [] => none
  | (alts, f) :: rest =>
    match searchWord alts none text with
    | none => firstMatchingRule ref text rest
    | some m =>
      match (if pyCallable f then f.callNoArgs ref else f.callWithMatch ref m) with
      | some d => some (alts, d)
      | none => firstMatchingRule ref text rest

/-! ### Basic lemmas about stripping whitespace -/

lemma dropWhile_idem {α : Type} (p : α → Bool) (l : List α) :
    (l.dropWhile p).dropWhile p = l.dropWhile p := by
  induction l with
  | nil => rfl
  | cons a t ih =>
    rcases h : p a with _ | _
    · simp [List.dropWhile_cons, h]
    · simp [List.dropWhile_cons, h, ih]

lemma dropWhile_head_false {α : Type} (p : α → Bool) (l : List α) :
    ∀ a ∈ (l.dropWhile p).head?, p a = false := by
  intro a ha
  have h := List.head?_dropWhile_not p l
  rw [Option.mem_def] at ha
  rw [ha] at h
  exact h

lemma dropWhile_eq_self_of_head {α : Type} (p : α → Bool) (l : List α)
    (h : ∀ a ∈ l.head?, p a = false) : l.dropWhile p = l := by
  cases l with
  | nil => rfl
  | cons a t => simp [List.dropWhile_cons, h a rfl]

lemma getLast?_dropWhile {α : Type} (p : α → Bool) (l : List α) :
    l.dropWhile p = [] ∨ (l.dropWhile p).getLast? = l.getLast? := by
  induction l with
  | nil => exact Or.inl rfl
  | cons a t ih =>
    rcases h : p a with _ | _
    · exact Or.inr (by simp [List.dropWhile_cons, h])
    · cases t with
      | nil => exact Or.inl (by simp [List.dropWhile_cons, h])
      | cons b u =>
        rcases ih with ih | ih
        · exact Or.inl (by simp [List.dropWhile_cons, h, ih])
        · refine Or.inr ?_
          rw [List.dropWhile_cons_of_pos h, ih, List.getLast?_cons_cons]

lemma stripWS_idem (l : List Char) : stripWS (stripWS l) = stripWS l := by
  have hC : (stripWS l).dropWhile isSpaceChar = stripWS l := by
    apply dropWhile_eq_self_of_head
    intro a ha
    unfold stripWS at ha
    rw [List.head?_reverse] at ha
    rcases getLast?_dropWhile isSpaceChar (l.dropWhile isSpaceChar).reverse with h | h
    · rw [h] at ha; simp at ha
    · rw [h, List.getLast?_reverse] at ha
      exact dropWhile_head_false isSpaceChar l a ha
  show (((stripWS l).dropWhile isSpaceChar).reverse.dropWhile isSpaceChar).reverse
      = stripWS l
  rw [hC]
  have hD : (stripWS l).reverse.dropWhile isSpaceChar = (stripWS l).reverse := by
    unfold stripWS
    rw [List.reverse_reverse]
    exact dropWhile_idem _ _
  rw [hD, List.reverse_reverse]

lemma dropWhile_exists_append {α : Type} (p : α → Bool) (l : List α) :
    ∃ t, l = t ++ l.dropWhile p := by
  induction l with
  | nil => exact ⟨[], rfl⟩
  | cons a t ih =>
    rcases h : p a with _ | _
    · exact ⟨[], by simp [List.dropWhile_cons, h]⟩
    · obtain ⟨u, hu⟩ := ih
      refine ⟨a :: u, ?_⟩
      simp only [List.dropWhile_cons, h, List.cons_append, if_true]
      exact congrArg (a :: ·) hu

lemma stripWS_factor (l : List Char) : ∃ a b, l = a ++ stripWS l ++ b := by
  obtain ⟨u, hu⟩ := dropWhile_exists_append isSpaceChar l
  obtain ⟨v, hv⟩ :=
    dropWhile_exists_append isSpaceChar (l.dropWhile isSpaceChar).reverse
  refine ⟨u, v.reverse, ?_⟩
  have hA : l.dropWhile isSpaceChar = stripWS l ++ v.reverse := by
    have h2 := congrArg List.reverse hv
    rw [List.reverse_reverse, List.reverse_append] at h2
    exact h2
  conv_lhs => rw [hu]
  rw [List.append_assoc]
  exact congrArg (u ++ ·) hA

/-! ### Substring containment -/

lemma prefixB_iff {pat : List Char} : ∀ {s : List Char},
    prefixB pat s = true ↔ ∃ t, s = pat ++ t := by
  induction pat with
  | nil => intro s; simp [prefixB]
  | cons a w ih =>
    intro s
    cases s with
    | nil => simp [prefixB]
    | cons c r =>
      simp only [prefixB, Bool.and_eq_true, beq_iff_eq, ih, List.cons_append,
        List.cons.injEq]
      constructor
      · rintro ⟨rfl, t, rfl⟩; exact ⟨t, rfl, rfl⟩
      · rintro ⟨t, rfl, rfl⟩; exact ⟨rfl, t, rfl⟩

lemma containsSub_iff {pat : List Char} : ∀ {l : List Char},
    containsSub pat l = true ↔ ∃ a b, l = a ++ pat ++ b := by
  intro l
  induction l with
  | nil =>
    simp only [containsSub, List.isEmpty_iff]
    constructor
    · rintro rfl; exact ⟨[], [], rfl⟩
    · rintro ⟨a, b, hab⟩
      simp only [List.nil_eq, List.append_eq_nil] at hab
      exact hab.1.2
  | cons c s ih =>
    simp only [containsSub, Bool.or_eq_true, prefixB_iff, ih]
    constructor
    · rintro (⟨t, ht⟩ | ⟨a, b, hab⟩)
      · exact ⟨[], t, by simp [ht]⟩
      · exact ⟨c :: a, b, by simp [hab]⟩
    · rintro ⟨a, b, hab⟩
      cases a with
      | nil => exact Or.inl ⟨b, by simpa using hab⟩
      | cons x a2 =>
        simp only [List.cons_append, List.cons.injEq] at hab
        exact Or.inr ⟨a2, b, hab.2⟩

lemma containsSub_of_factor {pat m l : List Char} (hm : containsSub pat m = true)
    (h : ∃ a b, l = a ++ m ++ b) : containsSub pat l = true := by
  rw [containsSub_iff] at hm ⊢
  obtain ⟨x, y, hxy⟩ := hm
  obtain ⟨a, b, rfl⟩ := h
  exact ⟨a ++ x, y ++ b, by simp [hxy]⟩

lemma containsSub_stripWS_false {pat l : List Char}
    (h : containsSub pat l = false) : containsSub pat (stripWS l) = false := by
  by_contra hc
  rw [Bool.not_eq_false] at hc
  have h2 := containsSub_of_factor hc (stripWS_factor l)
  rw [h] at h2
  exact Bool.noConfusion h2

lemma containsSub_bang2_of_bang3 {l : List Char}
    (h : containsSub bang3 l = true) : containsSub bang2 l = true := by
  rw [containsSub_iff] at h ⊢
  obtain ⟨a, b, rfl⟩ := h
  exact ⟨a, '!' :: b, by simp [bang2, bang3]⟩

/-! ### Removal of a run marker leaves no occurrence of it -/

lemma replicate_prefixB (c : Char) : ∀ (k : Nat) (l : List Char),
    (prefixB (List.replicate k c) l = true ↔ k ≤ leadCount c l) := by
  intro k
  induction k with
  | zero => intro l; simp [prefixB]
  | succ n ih =>
    intro l
    cases l with
    | nil => simp [List.replicate_succ, prefixB, leadCount]
    | cons a l2 =>
      simp only [List.replicate_succ, prefixB, Bool.and_eq_true, beq_iff_eq,
        leadCount]
      by_cases hac : a = c
      · subst hac
        rw [if_pos (by simp)]
        simp [ih, Nat.succ_le_succ_iff]
      · rw [if_neg (by simp [hac])]
        constructor
        · rintro ⟨h1, -⟩; exact absurd h1.symm hac
        · intro h; omega

lemma leadCount_drop_of_prefixB (c : Char) : ∀ (k : Nat) (l : List Char),
    prefixB (List.replicate k c) l = true →
    leadCount c l = k + leadCount c (l.drop k) := by
  intro k
  induction k with
  | zero => intro l _; simp
  | succ n ih =>
    intro l h
    cases l with
    | nil => simp [List.replicate_succ, prefixB] at h
    | cons a l2 =>
      simp only [List.replicate_succ, prefixB, Bool.and_eq_true, beq_iff_eq] at h
      obtain ⟨rfl, h2⟩ := h
      simp only [leadCount, List.drop_succ_cons]
      rw [if_pos (by simp), ih l2 h2]
      omega

lemma replaceAllAux_skip (pat : List Char) : ∀ (k : Nat) (s : List Char),
    replaceAllAux pat k s = replaceAllAux pat 0 (s.drop k) := by
  intro k
  induction k with
  | zero => intro s; simp
  | succ n ih =>
    intro s
    cases s with
    | nil => simp [replaceAllAux]
    | cons a t => simp only [replaceAllAux, ih, List.drop_succ_cons]

lemma replicate_isEmpty_false (c : Char) (m : Nat) :
    (List.replicate (m + 1) c).isEmpty = false := by
  simp [List.replicate_succ]

lemma leadCount_replaceAll (c : Char) (m : Nat) : ∀ (n : Nat) (s : List Char),
    s.length ≤ n →
    leadCount c (replaceAll (List.replicate (m + 1) c) s) ≤ leadCount c s ∧
    leadCount c (replaceAll (List.replicate (m + 1) c) s) < m + 1 := by
  intro n
  induction n with
  | zero =>
    intro s hs
    have hnil : s = [] := List.eq_nil_of_length_eq_zero (Nat.le_zero.mp hs)
    subst hnil
    simp [replaceAll, replaceAllAux, leadCount]
  | succ n ih =>
    intro s hs
    cases s with
    | nil => simp [replaceAll, replaceAllAux, leadCount]
    | cons a t =>
      rw [replaceAll]
      simp only [replaceAllAux, replicate_isEmpty_false, Bool.not_false,
        Bool.and_true]
      by_cases hpre : prefixB (List.replicate (m + 1) c) (a :: t) = true
      · rw [if_pos hpre, replaceAllAux_skip, List.length_replicate]
        have hlen : (t.drop (m + 1 - 1)).length ≤ n := by
          simp only [List.length_drop]
          simp only [List.length_cons] at hs
          omega
        have hih := ih (t.drop (m + 1 - 1)) hlen
        have haux : replaceAllAux (List.replicate (m + 1) c) 0 (t.drop (m + 1 - 1))
            = replaceAll (List.replicate (m + 1) c) (t.drop (m + 1 - 1)) := rfl
        rw [haux]
        have hdrop : (a :: t).drop (m + 1) = t.drop (m + 1 - 1) := by
          simp [List.drop_succ_cons]
        have hlead := leadCount_drop_of_prefixB c (m + 1) (a :: t) hpre
        rw [hdrop] at hlead
        exact ⟨by omega, hih.2⟩
      · rw [if_neg hpre]
        have hlent : t.length ≤ n := by
          simp only [List.length_cons] at hs; omega
        have hih := ih t hlent
        have hnotle := (not_congr (replicate_prefixB c (m + 1) (a :: t))).mp hpre
        have haux : replaceAllAux (List.replicate (m + 1) c) 0 t
            = replaceAll (List.replicate (m + 1) c) t := rfl
        by_cases hac : a = c
        · subst hac
          simp only [leadCount, beq_self_eq_true, eq_self_iff_true, if_true,
            haux] at hnotle ⊢
          constructor <;> omega
        · have hac2 : (a == c) = false := by simp [hac]
          simp only [leadCount, hac2, Bool.false_eq_true, if_false, haux]
            at hnotle ⊢
          omega

lemma containsSub_replaceAll_replicate (c : Char) (m : Nat) :
    ∀ (n : Nat) (s : List Char), s.length ≤ n →
    containsSub (List.replicate (m + 1) c)
      (replaceAll (List.replicate (m + 1) c) s) = false := by
  intro n
  induction n with
  | zero =>
    intro s hs
    have hnil : s = [] := List.eq_nil_of_length_eq_zero (Nat.le_zero.mp hs)
    subst hnil
    simp [replaceAll, replaceAllAux, containsSub, List.replicate_succ]
  | succ n ih =>
    intro s hs
    cases s with
    | nil => simp [replaceAll, replaceAllAux, containsSub, List.replicate_succ]
    | cons a t =>
      rw [replaceAll]
      simp only [replaceAllAux, replicate_isEmpty_false, Bool.not_false,
        Bool.and_true]
      by_cases hpre : prefixB (List.replicate (m + 1) c) (a :: t) = true
      · rw [if_pos hpre, replaceAllAux_skip, List.length_replicate]
        have hlen : (t.drop (m + 1 - 1)).length ≤ n := by
          simp only [List.length_drop]
          simp only [List.length_cons] at hs
          omega
        exact ih (t.drop (m + 1 - 1)) hlen
      · rw [if_neg hpre]
        have hlent : t.length ≤ n := by
          simp only [List.length_cons] at hs; omega
        simp only [containsSub, Bool.or_eq_false_iff]
        refine ⟨?_, ih t hlent⟩
        rw [← Bool.not_eq_true, replicate_prefixB]
        have hnotle := (not_congr (replicate_prefixB c (m + 1) (a :: t))).mp hpre
        have hrest := leadCount_replaceAll c m n t hlent
        have haux : replaceAllAux (List.replicate (m + 1) c) 0 t
            = replaceAll (List.replicate (m + 1) c) t := rfl
        by_cases hac : a = c
        · subst hac
          simp only [leadCount, beq_self_eq_true, eq_self_iff_true, if_true,
            haux] at hnotle ⊢
          omega
        · have hac2 : (a == c) = false := by simp [hac]
          simp only [leadCount, hac2, Bool.false_eq_true, if_false, haux]
            at hnotle ⊢
          omega

lemma replaceAll_bang3_no_occ (s : List Char) :
    containsSub bang3 (replaceAll bang3 s) = false := by
  have h : bang3 = List.replicate 3 '!' := rfl
  rw [h]
  exact containsSub_replaceAll_replicate '!' 2 s.length s (Nat.le_refl _)

lemma replaceAll_bang2_no_occ (s : List Char) :
    containsSub bang2 (replaceAll bang2 s) = false := by
  have h : bang2 = List.replicate 2 '!' := rfl
  rw [h]
  exact containsSub_replaceAll_replicate '!' 1 s.length s (Nat.le_refl _)

/-! ### Projections of the parser -/

lemma parse_priority (ref : Date) (text : List Char) :
    (parse_natural_language ref text).priority =
      (if containsSub bang3 text then some 3
       else if containsSub bang2 text then some 2 else none) := rfl

lemma parse_tags (ref : Date) (text : List Char) :
    (parse_natural_language ref text).tags =
      (if (findTags text).isEmpty then none else some (findTags text)) := rfl

lemma parse_title (ref : Date) (text : List Char) :
    (parse_natural_language ref text).title =
      stage3Title text
        (stage2Title text (runDateRules ref text date_patterns).2) := rfl

/-- If a priority was extracted then the exact marker that produced it
(`!!!` for 3, `!!` for 2) no longer occurs in the returned title. -/
lemma priority_marker_gone (ref : Date) (text : List Char) (p : Nat)
    (h : (parse_natural_language ref text).priority = some p) :
    containsSub (List.replicate p '!') (parse_natural_language ref text).title
      = false := by
  rw [parse_priority] at h
  rw [parse_title]
  by_cases h3 : containsSub bang3 text = true
  · rw [if_pos h3] at h
    injection h with hp
    subst hp
    have hb : List.replicate 3 '!' = bang3 := rfl
    rw [hb, stage3Title, if_pos h3]
    exact containsSub_stripWS_false (replaceAll_bang3_no_occ _)
  · rw [if_neg h3] at h
    by_cases h2 : containsSub bang2 text = true
    · rw [if_pos h2] at h
      injection h with hp
      subst hp
      have hb : List.replicate 2 '!' = bang2 := rfl
      rw [hb, stage3Title, if_neg h3, if_pos h2]
      exact containsSub_stripWS_false (replaceAll_bang2_no_occ _)
    · rw [if_neg h2] at h
      exact Option.noConfusion h

/-! ### The returned title is always trimmed -/

/-- Every handler passes the `callable` test, so the dispatch on line 25
of the source always takes the zero-argument call. -/
lemma callable_if (f : DateFunc) (a b : Option Date) :
    (if pyCallable f then a else b) = a := rfl

lemma runDateRules_snd_stripped (ref : Date) (text : List Char) :
    ∀ rules, stripWS (runDateRules ref text rules).2
      = (runDateRules ref text rules).2 := by
  intro rules
  induction rules with
  | nil =>
    simp only [runDateRules]
    exact stripWS_idem text
  | cons r rest ih =>
    obtain ⟨alts, f⟩ := r
    simp only [runDateRules, callable_if]
    cases hs : searchWord alts none text with
    | none => exact ih
    | some m =>
      cases hc : f.callNoArgs ref with
      | none => exact ih
      | some d => exact stripWS_idem _

lemma parse_title_stripped (ref : Date) (text : List Char) :
    stripWS (parse_natural_language ref text).title
      = (parse_natural_language ref text).title := by
  rw [parse_title]
  have h2 : stripWS (stage2Title text (runDateRules ref text date_patterns).2)
      = stage2Title text (runDateRules ref text date_patterns).2 := by
    rw [stage2Title]
    split
    · exact runDateRules_snd_stripped ref text date_patterns
    · exact stripWS_idem _
  rw [stage3Title]
  split
  · exact stripWS_idem _
  · split
    · exact stripWS_idem _
    · exact h2

/-! ### Whitespace-only input -/

lemma ws_cases {c : Char} (h : c.isWhitespace = true) :
    c = ' ' ∨ c = '\t' ∨ c = '\r' ∨ c = '\n' := by
  simp only [Char.isWhitespace, Bool.or_eq_true, decide_eq_true_eq] at h
  tauto

lemma wordAt_ws_none {alts : List (List Char)}
    (halts : alts.all altHeadOkWS = true) {c : Char}
    (hc : c.isWhitespace = true) (prev : Option Char) (rest : List Char) :
    wordAt alts prev (c :: rest) = none := by
  rw [wordAt, List.find?_eq_none]
  intro w hw
  have hok := List.all_eq_true.mp halts w hw
  cases w with
  | nil => simp [altHeadOkWS] at hok
  | cons d w2 =>
    simp only [altHeadOkWS, Bool.not_eq_true', Bool.or_eq_false_iff] at hok
    obtain ⟨⟨⟨hd1, hd2⟩, hd3⟩, hd4⟩ := hok
    intro hcontra
    simp only [Bool.and_eq_true] at hcontra
    have hpre := hcontra.1.1
    simp only [ciPrefixB, Bool.and_eq_true] at hpre
    have hde := hpre.1
    rcases ws_cases hc with rfl | rfl | rfl | rfl
    · rw [hd1] at hde; exact Bool.noConfusion hde
    · rw [hd2] at hde; exact Bool.noConfusion hde
    · rw [hd3] at hde; exact Bool.noConfusion hde
    · rw [hd4] at hde; exact Bool.noConfusion hde

lemma searchWord_ws_none {alts : List (List Char)}
    (halts : alts.all altHeadOkWS = true) :
    ∀ (s : List Char), (∀ c ∈ s, c.isWhitespace = true) →
    ∀ prev, searchWord alts prev s = none := by
  intro s
  induction s with
  | nil => intro _ _; rfl
  | cons c rest ih =>
    intro hs prev
    simp only [searchWord]
    rw [wordAt_ws_none halts (hs c (List.mem_cons_self c rest)) prev rest]
    exact ih (fun x hx => hs x (List.mem_cons_of_mem c hx)) (some c)

lemma findTags_ws : ∀ (s : List Char), (∀ c ∈ s, c.isWhitespace = true) →
    findTagsAux none s = [] := by
  intro s
  induction s with
  | nil => intro _; rfl
  | cons c rest ih =>
    intro hs
    have hc : (c == '#') = false := by
      rcases ws_cases (hs c (List.mem_cons_self c rest)) with rfl | rfl | rfl | rfl
        <;> rfl
    simp only [findTagsAux, hc, Bool.false_and, Bool.false_eq_true, if_false]
    exact ih (fun x hx => hs x (List.mem_cons_of_mem c hx))

lemma containsSub_bang_ws : ∀ (s : List Char),
    (∀ c ∈ s, c.isWhitespace = true) → ∀ (p2 : List Char),
    containsSub ('!' :: p2) s = false := by
  intro s
  induction s with
  | nil => intro _ p2; rfl
  | cons c rest ih =>
    intro hs p2
    have hc : ('!' == c) = false := by
      rcases ws_cases (hs c (List.mem_cons_self c rest)) with rfl | rfl | rfl | rfl
        <;> rfl
    simp only [containsSub, prefixB, hc, Bool.false_and, Bool.false_or]
    exact ih (fun x hx => hs x (List.mem_cons_of_mem c hx)) p2

lemma dropWhile_ws_nil : ∀ (s : List Char), (∀ c ∈ s, c.isWhitespace = true) →
    s.dropWhile isSpaceChar = [] := by
  intro s
  induction s with
  | nil => intro _; rfl
  | cons c rest ih =>
    intro hs
    have hcp : isSpaceChar c = true := hs c (List.mem_cons_self c rest)
    rw [List.dropWhile_cons_of_pos hcp]
    exact ih (fun x hx => hs x (List.mem_cons_of_mem c hx))

lemma stripWS_ws (s : List Char) (hs : ∀ c ∈ s, c.isWhitespace = true) :
    stripWS s = [] := by
  rw [stripWS, dropWhile_ws_nil s hs]
  rfl

/-! ### Tags consist of word characters -/

lemma findTagsAux_wordchars : ∀ (s : List Char) (st : Option (List Char)),
    (∀ acc, st = some acc →
      (∀ c ∈ acc, isWordChar c = true) ∧ (acc = [] → headIsWord s = true)) →
    ∀ t ∈ findTagsAux st s, t ≠ [] ∧ ∀ c ∈ t, isWordChar c = true := by
  intro s
  induction s with
  | nil =>
    intro st hst t ht
    cases st with
    | none => simp [findTagsAux] at ht
    | some acc =>
      simp only [findTagsAux, List.mem_singleton] at ht
      subst ht
      obtain ⟨hw, hne⟩ := hst acc rfl
      constructor
      · intro hrev
        have hnil : acc = [] := by simpa using hrev
        exact Bool.noConfusion (hne hnil)
      · intro c hcmem
        exact hw c (List.mem_reverse.mp hcmem)
  | cons a rest ih =>
    intro st hst t ht
    cases st with
    | none =>
      simp only [findTagsAux] at ht
      by_cases hcond : (a == '#' && headIsWord rest) = true
      · rw [if_pos hcond] at ht
        refine ih (some []) ?_ t ht
        intro acc hacc
        injection hacc with hacc
        subst hacc
        rw [Bool.and_eq_true] at hcond
        exact ⟨by simp, fun _ => hcond.2⟩
      · rw [if_neg hcond] at ht
        exact ih none (by simp) t ht
    | some acc =>
      simp only [findTagsAux] at ht
      obtain ⟨hw, hne⟩ := hst acc rfl
      by_cases hword : isWordChar a = true
      · rw [if_pos hword] at ht
        refine ih (some (a :: acc)) ?_ t ht
        intro acc2 hacc
        injection hacc with hacc
        subst hacc
        constructor
        · intro c hc
          rcases List.mem_cons.mp hc with rfl | hc2
          · exact hword
          · exact hw c hc2
        · intro hcontra
          exact absurd hcontra (by simp)
      · rw [if_neg hword] at ht
        rcases List.mem_cons.mp ht with rfl | ht2
        · constructor
          · intro hrev
            have hnil : acc = [] := by simpa using hrev
            have hhead := hne hnil
            simp only [headIsWord] at hhead
            exact hword hhead
          · intro c hcmem
            exact hw c (List.mem_reverse.mp hcmem)
        · by_cases hcond : (a == '#' && headIsWord rest) = true
          · rw [if_pos hcond] at ht2
            refine ih (some []) ?_ t ht2
            intro acc2 hacc
            injection hacc with hacc
            subst hacc
            rw [Bool.and_eq_true] at hcond
            exact ⟨by simp, fun _ => hcond.2⟩
          · rw [if_neg hcond] at ht2
            exact ih none (by simp) t ht2

lemma findTags_wordchars (text : List Char) :
    ∀ t ∈ findTags text, t ≠ [] ∧ ∀ c ∈ t, isWordChar c = true := by
  refine findTagsAux_wordchars text none ?_
  intro acc hacc
  exact Option.noConfusion hacc

/-! ### Characters related by case-insensitive comparison -/

lemma toLower_eq_self_of_not_upper {c : Char}
    (h : ¬(c.toNat ≥ 65 ∧ c.toNat ≤ 90)) : c.toLower = c := by
  simp only [Char.toLower]
  rw [if_neg h]

lemma isWordChar_of_upper_range {c : Char}
    (h : c.toNat ≥ 65 ∧ c.toNat ≤ 90) : isWordChar c = true := by
  have h1 : (65 : UInt32) ≤ c.val := by
    rw [UInt32.le_def, BitVec.le_def]
    exact h.1
  have h2 : c.val ≤ (90 : UInt32) := by
    rw [UInt32.le_def, BitVec.le_def]
    exact h.2
  simp [isWordChar, Char.isAlphanum, Char.isAlpha, Char.isUpper, h1, h2]

lemma ciEq_word_right {d x : Char} (hw : isWordChar d = true)
    (hl : d.toLower = d) (he : ciEq d x = true) : isWordChar x = true := by
  have heq : d.toLower = x.toLower := by
    simp only [ciEq, beq_iff_eq] at he
    exact he
  rw [hl] at heq
  by_cases hx : x.toNat ≥ 65 ∧ x.toNat ≤ 90
  · exact isWordChar_of_upper_range hx
  · rw [toLower_eq_self_of_not_upper hx] at heq
    rw [← heq]
    exact hw

lemma ciEq_nonword_false {d x : Char} (hw : isWordChar d = true)
    (hl : d.toLower = d) (hx : isWordChar x = false) : ciEq d x = false := by
  by_contra hc
  rw [Bool.not_eq_false] at hc
  rw [ciEq_word_right hw hl hc] at hx
  exact Bool.noConfusion hx

lemma lowerWordStr_spec {w : List Char} (h : lowerWordStr w = true) :
    (∃ d w2, w = d :: w2) ∧ ∀ ch ∈ w, isWordChar ch = true ∧ ch.toLower = ch := by
  rw [lowerWordStr, Bool.and_eq_true] at h
  obtain ⟨hne, hall⟩ := h
  constructor
  · cases w with
    | nil => simp at hne
    | cons a l => exact ⟨a, l, rfl⟩
  · intro ch hch
    have h2 := List.all_eq_true.mp hall ch hch
    rw [Bool.and_eq_true, beq_iff_eq] at h2
    exact h2

lemma altsLowerWord_spec {alts : List (List Char)}
    (h : altsLowerWord alts = true) : ∀ w ∈ alts, lowerWordStr w = true :=
  fun w hw => List.all_eq_true.mp h w hw

/-! ### Re-searching the output of the date substitution finds nothing -/

lemma wordAt_word_prev_none (alts : List (List Char)) {p : Char}
    (hp : isWordChar p = true) (s : List Char) :
    wordAt alts (some p) s = none := by
  rw [wordAt, List.find?_eq_none]
  intro w _
  simp [boundaryB, hp]

lemma subWordAux_copy (alts : List (List Char)) {p : Char}
    (hp : isWordChar p = true) (x : Char) (xs : List Char) :
    subWordAux alts (some p) 0 (x :: xs) = x :: subWordAux alts (some x) 0 xs := by
  simp only [subWordAux, wordAt_word_prev_none alts hp]

lemma prevAfter_cons (p : Option Char) (x : Char) (l : List Char) :
    prevAfter p (x :: l) = prevAfter (some x) l := by
  cases l with
  | nil => rfl
  | cons y l2 =>
    simp only [prevAfter, List.getLast?_cons_cons]
    cases hg : (y :: l2).getLast? with
    | none =>
      rw [List.getLast?_eq_none_iff] at hg
      exact absurd hg (by simp)
    | some z => rfl

lemma subWordAux_skip (alts : List (List Char)) : ∀ (k : Nat) (prev : Option Char)
    (s : List Char), subWordAux alts prev k s
      = subWordAux alts (prevAfter prev (s.take k)) 0 (s.drop k) := by
  intro k
  induction k with
  | zero =>
    intro prev s
    simp [prevAfter]
  | succ n ih =>
    intro prev s
    cases s with
    | nil => simp [subWordAux, prevAfter]
    | cons x xs =>
      simp only [subWordAux, List.take_succ_cons, List.drop_succ_cons,
        prevAfter_cons]
      exact ih (some x) xs

lemma ciPrefixB_take_word : ∀ (w : List Char),
    (∀ ch ∈ w, isWordChar ch = true ∧ ch.toLower = ch) →
    ∀ (s : List Char), ciPrefixB w s = true →
    ∀ ch ∈ s.take w.length, isWordChar ch = true := by
  intro w
  induction w with
  | nil =>
    intro _ s _ ch hch
    simp at hch
  | cons d w2 ih =>
    intro hw s hpre ch hch
    cases s with
    | nil => simp [ciPrefixB] at hpre
    | cons x xs =>
      simp only [ciPrefixB, Bool.and_eq_true] at hpre
      simp only [List.length_cons, List.take_succ_cons, List.mem_cons] at hch
      rcases hch with rfl | hch2
      · exact ciEq_word_right (hw d (List.mem_cons_self d w2)).1
          (hw d (List.mem_cons_self d w2)).2 hpre.1
      · exact ih (fun c2 hc2 => hw c2 (List.mem_cons_of_mem d hc2)) xs hpre.2
          ch hch2

lemma subWord_prefix_compare : ∀ (w2 : List Char),
    (∀ ch ∈ w2, isWordChar ch = true ∧ ch.toLower = ch) →
    ∀ (alts : List (List Char)) (rest : List Char) {p : Char},
    isWordChar p = true →
    ciPrefixB w2 (subWordAux alts (some p) 0 rest) = ciPrefixB w2 rest ∧
    (ciPrefixB w2 rest = true →
      headIsWord ((subWordAux alts (some p) 0 rest).drop w2.length)
        = headIsWord (rest.drop w2.length)) := by
  intro w2
  induction w2 with
  | nil =>
    intro _ alts rest p hp
    refine ⟨rfl, fun _ => ?_⟩
    cases rest with
    | nil => rfl
    | cons x xs =>
      rw [subWordAux_copy alts hp]
      rfl
  | cons d w3 ih =>
    intro hch alts rest p hp
    cases rest with
    | nil =>
      refine ⟨rfl, fun h => ?_⟩
      simp [ciPrefixB] at h
    | cons x xs =>
      rw [subWordAux_copy alts hp]
      by_cases he : ciEq d x = true
      · have hxw : isWordChar x = true :=
          ciEq_word_right (hch d (List.mem_cons_self d w3)).1
            (hch d (List.mem_cons_self d w3)).2 he
        have IH := ih (fun c2 hc2 => hch c2 (List.mem_cons_of_mem d hc2))
          alts xs hxw
        constructor
        · simp only [ciPrefixB, he, Bool.true_and]
          exact IH.1
        · intro hpr
          simp only [ciPrefixB, he, Bool.true_and] at hpr
          simp only [List.length_cons, List.drop_succ_cons]
          exact IH.2 hpr
      · have he2 : ciEq d x = false := by simpa using he
        constructor
        · simp only [ciPrefixB, he2, Bool.false_and]
        · intro hpr
          simp only [ciPrefixB, he2, Bool.false_and] at hpr
          exact Bool.noConfusion hpr

lemma searchWord_subWord_none {alts : List (List Char)}
    (halts : altsLowerWord alts = true) :
    ∀ (n : Nat) (s : List Char), s.length ≤ n →
    ∀ prev, searchWord alts prev (subWordAux alts prev 0 s) = none := by
  intro n
  induction n with
  | zero =>
    intro s hs prev
    have hnil : s = [] := List.eq_nil_of_length_eq_zero (Nat.le_zero.mp hs)
    subst hnil
    rfl
  | succ n ih =>
    intro s hs prev
    cases s with
    | nil => rfl
    | cons c rest =>
      cases hw : wordAt alts prev (c :: rest) with
      | none =>
        have hout : subWordAux alts prev 0 (c :: rest)
            = c :: subWordAux alts (some c) 0 rest := by
          simp only [subWordAux, hw]
        rw [hout]
        have hnomatch :
            wordAt alts prev (c :: subWordAux alts (some c) 0 rest) = none := by
          rw [wordAt, List.find?_eq_none]
          intro w hwmem
          obtain ⟨⟨d, w2, rfl⟩, hchars⟩ :=
            lowerWordStr_spec (altsLowerWord_spec halts w hwmem)
          rw [wordAt] at hw
          have hfw := List.find?_eq_none.mp hw (d :: w2) hwmem
          intro hcontra
          apply hfw
          simp only [List.length_cons, List.drop_succ_cons, ciPrefixB,
            afterBoundaryB, Bool.and_eq_true] at hcontra ⊢
          obtain ⟨⟨⟨he2, hpre2⟩, hb2⟩, haf2⟩ := hcontra
          have hcw : isWordChar c = true :=
            ciEq_word_right (hchars d (List.mem_cons_self d w2)).1
              (hchars d (List.mem_cons_self d w2)).2 he2
          have hcmp := subWord_prefix_compare w2
            (fun ch hch => hchars ch (List.mem_cons_of_mem d hch)) alts rest hcw
          have hpre_rest : ciPrefixB w2 rest = true := by
            rw [← hcmp.1]
            exact hpre2
          refine ⟨⟨⟨he2, hpre_rest⟩, hb2⟩, ?_⟩
          rw [← hcmp.2 hpre_rest]
          exact haf2
        simp only [searchWord, hnomatch]
        exact ih rest (by simp only [List.length_cons] at hs; omega) (some c)
      | some w =>
        have hw2 : (alts.find? fun w3 => ciPrefixB w3 (c :: rest)
            && boundaryB prev
            && afterBoundaryB ((c :: rest).drop w3.length)) = some w := hw
        have hwmem := List.mem_of_find?_eq_some hw2
        have hpred := List.find?_some hw2
        obtain ⟨⟨d, w2, rfl⟩, hchars⟩ :=
          lowerWordStr_spec (altsLowerWord_spec halts _ hwmem)
        simp only [List.length_cons, List.drop_succ_cons, Bool.and_eq_true]
          at hpred
        obtain ⟨⟨hpre, hb⟩, haf⟩ := hpred
        simp only [afterBoundaryB, Bool.not_eq_true'] at haf
        have hout : subWordAux alts prev 0 (c :: rest)
            = subWordAux alts (some c) w2.length rest := by
          simp only [subWordAux, hw, List.isEmpty_cons, List.length_cons,
            Nat.add_sub_cancel]
          rfl
        rw [hout, subWordAux_skip]
        have hp2w : ∃ q, prevAfter (some c) (rest.take w2.length) = some q
            ∧ isWordChar q = true := by
          have hm := ciPrefixB_take_word (d :: w2) hchars (c :: rest) hpre
          simp only [List.length_cons, List.take_succ_cons] at hm
          cases hg : (rest.take w2.length).getLast? with
          | none =>
            exact ⟨c, by simp [prevAfter, hg], hm c (List.mem_cons_self _ _)⟩
          | some y =>
            exact ⟨y, by simp [prevAfter, hg],
              hm y (List.mem_cons_of_mem c (List.mem_of_getLast?_eq_some hg))⟩
        obtain ⟨q, hq, hqw⟩ := hp2w
        rw [hq]
        cases hrest2 : rest.drop w2.length with
        | nil => rfl
        | cons x xs =>
          rw [hrest2] at haf
          simp only [headIsWord] at haf
          rw [subWordAux_copy alts hqw]
          have hnom :
              wordAt alts prev (x :: subWordAux alts (some x) 0 xs) = none := by
            rw [wordAt, List.find?_eq_none]
            intro w3 hw3
            obtain ⟨⟨d3, w4, rfl⟩, hch3⟩ :=
              lowerWordStr_spec (altsLowerWord_spec halts w3 hw3)
            intro hcontra
            simp only [ciPrefixB, Bool.and_eq_true] at hcontra
            have he3 := hcontra.1.1.1
            rw [ciEq_nonword_false (hch3 d3 (List.mem_cons_self d3 w4)).1
              (hch3 d3 (List.mem_cons_self d3 w4)).2 haf] at he3
            exact Bool.noConfusion he3
          simp only [searchWord, hnom]
          refine ih xs ?_ (some x)
          have hlen := congrArg List.length hrest2
          simp only [List.length_drop, List.length_cons] at hlen hs
          omega

lemma subWord_no_match {alts : List (List Char)}
    (halts : altsLowerWord alts = true) (s : List Char) :
    searchWord alts none (subWord alts s) = none :=
  searchWord_subWord_none halts s.length s (Nat.le_refl _) none

/-! ### The rule loop is first-match-wins -/

lemma runDateRules_eq_firstMatchingRule (ref : Date) (text : List Char) :
    ∀ rules, runDateRules ref text rules
      = match firstMatchingRule ref text rules with
        | some (alts, d) => (some d, stripWS (subWord alts text))
        | none => (none, stripWS text) := by
  intro rules
  induction rules with
  | nil => rfl
  | cons r rest ih =>
    obtain ⟨alts, f⟩ := r
    simp only [runDateRules, firstMatchingRule, callable_if]
    cases hs : searchWord alts none text with
    | none => exact ih
    | some m =>
      cases hc : f.callNoArgs ref with
      | none => exact ih
      | some d => rfl

lemma firstMatchingRule_mem (ref : Date) (text : List Char) :
    ∀ rules alts d, firstMatchingRule ref text rules = some (alts, d) →
      alts ∈ rules.map Prod.fst := by
  intro rules
  induction rules with
  | nil =>
    intro alts d h
    exact Option.noConfusion h
  | cons r rest ih =>
    obtain ⟨alts0, f⟩ := r
    intro alts d h
    simp only [firstMatchingRule, callable_if] at h
    rcases hs : searchWord alts0 none text with _ | m
    · rw [hs] at h
      exact List.mem_cons_of_mem _ (ih alts d h)
    · rw [hs] at h
      rcases hc : f.callNoArgs ref with _ | d2
      · rw [hc] at h
        exact List.mem_cons_of_mem _ (ih alts d h)
      · rw [hc] at h
        injection h with h2
        have h3 : alts0 = alts := congrArg Prod.fst h2
        rw [List.map_cons, ← h3]
        exact List.mem_cons_self _ _

/-! ### The tag substitution leaves no hashtag match -/

lemma headIsWord_subTagsAux_true : ∀ s : List Char,
    headIsWord (subTagsAux true s) = false := by
  intro s
  induction s with
  | nil => rfl
  | cons c s ih =>
    simp only [subTagsAux]
    by_cases h1 : isWordChar c = true
    · rw [if_pos h1]
      exact ih
    · rw [if_neg h1]
      by_cases h2 : (c == '#' && headIsWord s) = true
      · rw [if_pos h2]
        exact ih
      · rw [if_neg h2]
        simp only [headIsWord]
        simpa using h1

lemma headIsWord_subTagsAux_false : ∀ s : List Char,
    headIsWord (subTagsAux false s) = true → headIsWord s = true := by
  intro s
  cases s with
  | nil => intro h; exact h
  | cons c s =>
    simp only [subTagsAux]
    by_cases h2 : (c == '#' && headIsWord s) = true
    · rw [if_pos h2, headIsWord_subTagsAux_true]
      intro h
      exact Bool.noConfusion h
    · rw [if_neg h2]
      intro h
      simp only [headIsWord] at h ⊢
      exact h

lemma noHashWord_subTagsAux : ∀ (s : List Char) (mode : Bool),
    noHashWord (subTagsAux mode s) = true := by
  intro s
  induction s with
  | nil =>
    intro mode
    cases mode <;> rfl
  | cons c s ih =>
    intro mode
    have hkeep : ¬(c == '#' && headIsWord s) = true →
        noHashWord (c :: subTagsAux false s) = true := by
      intro h2
      have hfin : (c == '#' && headIsWord (subTagsAux false s)) = false := by
        by_cases hc : (c == '#') = true
        · have hns : headIsWord s = false := by
            by_contra hq
            rw [Bool.not_eq_false] at hq
            exact h2 (by simp [hc, hq])
          have hout : headIsWord (subTagsAux false s) = false := by
            by_contra hq
            rw [Bool.not_eq_false] at hq
            rw [headIsWord_subTagsAux_false s hq] at hns
            exact Bool.noConfusion hns
          rw [hout, Bool.and_false]
        · have hc2 : (c == '#') = false := by simpa using hc
          rw [hc2, Bool.false_and]
      simp only [noHashWord, Bool.and_eq_true]
      exact ⟨by rw [hfin]; rfl, ih false⟩
    cases mode with
    | false =>
      simp only [subTagsAux]
      by_cases h2 : (c == '#' && headIsWord s) = true
      · rw [if_pos h2]
        exact ih true
      · rw [if_neg h2]
        exact hkeep h2
    | true =>
      simp only [subTagsAux]
      by_cases h1 : isWordChar c = true
      · rw [if_pos h1]
        exact ih true
      · rw [if_neg h1]
        by_cases h2 : (c == '#' && headIsWord s) = true
        · rw [if_pos h2]
          exact ih true
        · rw [if_neg h2]
          exact hkeep h2

lemma findTagsAux_none_of_noHashWord : ∀ l : List Char,
    noHashWord l = true → findTagsAux none l = [] := by
  intro l
  induction l with
  | nil => intro _; rfl
  | cons c s ih =>
    intro h
    simp only [noHashWord, Bool.and_eq_true, Bool.not_eq_true'] at h
    simp only [findTagsAux, h.1, Bool.false_eq_true, if_false]
    exact ih h.2

lemma findTags_subTags (s : List Char) : findTags (subTags s) = [] :=
  findTagsAux_none_of_noHashWord (subTagsAux false s) (noHashWord_subTagsAux s false)

/-! ### Claim theorems -/

/-- C1: the claim says the weekday rule always yields the next occurrence
of the named weekday strictly after the reference date, with
`parse("Call on monday")` on Friday 2024-03-15 giving due_date
2024-03-18.  In the code this never happens: `callable(date_func)` is
true for the match-taking weekday lambda too, so it is invoked with no
arguments, raises `TypeError`, and the bare `except` drops the rule.
The helper `get_next_weekday` itself would return 2024-03-18, but
`parse` returns no due_date and the unmodified title. -/
theorem c1_weekday_rule_dead :
    pyCallable weekdayF = true ∧
    DateFunc.callNoArgs weekdayF refFri = none ∧
    get_next_weekday refFri (str "monday") = some ⟨2024, 3, 18⟩ ∧
    parse_natural_language refFri (str "Call on monday") =
      { title := str "Call on monday" } := by
  decide

/-- C2: for every input string and reference date, `parse` terminates
(it is a total function of this embedding), never raises (all fallible
steps are locally absorbed into `Option` branches), and returns a
`ParseResult` whose title is a trimmed string: stripping it again
changes nothing. -/
theorem c2_total_title_trimmed (ref : Date) (text : List Char) :
    stripWS (parse_natural_language ref text).title
      = (parse_natural_language ref text).title :=
  parse_title_stripped ref text

/-- C3 counterexample: on `"a !!!!!"` the parser extracts priority 3,
yet the returned title `"a !!"` still contains the recognized priority
marker `!!`, contradicting the claim that no unstripped recognized
marker for an extracted field survives. -/
theorem c3_counterexample :
    (parse_natural_language refFri (str "a !!!!!")).priority = some 3 ∧
    containsSub bang2 (parse_natural_language refFri (str "a !!!!!")).title
      = true := by
  decide

/-- C3 (amended): the no-unstripped-marker guarantee holds for the
priority field only: if a priority was extracted, the title contains no
occurrence of the specific marker that produced it — no `!!!` when
priority is 3 and no `!!` when priority is 2 (a residual `!!` may
survive a priority-3 extraction).  For due_date and tags no such
guarantee holds, because a later stage's removal can re-form the very
marker an earlier stage stripped: `parse("today to!!day")` extracts a
due date via `today` yet returns title `"today"`, and
`parse("#z #!!z")` extracts the tag `z` yet returns title `"#z"`. -/
theorem c3_amended_marker_removed (ref : Date) (text : List Char) :
    (∀ p, (parse_natural_language ref text).priority = some p →
      containsSub (List.replicate p '!')
        (parse_natural_language ref text).title = false) ∧
    ((parse_natural_language refFri (str "today to!!day")).due_date
        = some refFri ∧
     (parse_natural_language refFri (str "today to!!day")).title
        = str "today") ∧
    ((parse_natural_language refFri (str "#z #!!z")).tags = some [str "z"] ∧
     (parse_natural_language refFri (str "#z #!!z")).title = str "#z") :=
  ⟨fun p h => priority_marker_gone ref text p h,
    ⟨by decide, by decide⟩, ⟨by decide, by decide⟩⟩

theorem c3_amended_witness :
    (parse_natural_language refFri (str "b !!!")).priority = some 3 ∧
    containsSub (List.replicate 3 '!')
      (parse_natural_language refFri (str "b !!!")).title = false :=
  ⟨by decide, (c3_amended_marker_removed refFri (str "b !!!")).1 3 (by decide)⟩

/-- C4 counterexample: parsing `"c !!!!!"` extracts priority 3 and
leaves title `"c !!"`; re-parsing that title extracts priority 2,
contradicting the claim that re-parsing a returned title extracts no
further priority. -/
theorem c4_counterexample :
    (parse_natural_language refFri (str "c !!!!!")).priority = some 3 ∧
    (parse_natural_language refFri
      (parse_natural_language refFri (str "c !!!!!")).title).priority
      = some 2 := by
  decide

/-- C4 (amended): re-running `parse` on the returned title can extract
further fields (leftover date phrases, markers reassembled by adjacent
removals, and a residual `!!` after a priority-3 extraction); what does
hold is that if the first parse extracted priority `p`, re-parsing the
title never yields the same priority `p` again. -/
theorem c4_amended_priority_not_repeated (ref ref2 : Date) (text : List Char)
    (p : Nat) (h : (parse_natural_language ref text).priority = some p) :
    (parse_natural_language ref2
      (parse_natural_language ref text).title).priority ≠ some p := by
  intro hcon
  have hgone := priority_marker_gone ref text p h
  rw [parse_priority] at h
  rw [parse_priority] at hcon
  by_cases h3 : containsSub bang3 text = true
  · rw [if_pos h3] at h
    injection h with hp
    subst hp
    rw [show List.replicate 3 '!' = bang3 from rfl] at hgone
    by_cases g3 : containsSub bang3 (parse_natural_language ref text).title = true
    · rw [hgone] at g3
      exact Bool.noConfusion g3
    · rw [if_neg g3] at hcon
      by_cases g2 : containsSub bang2 (parse_natural_language ref text).title = true
      · rw [if_pos g2] at hcon
        simp at hcon
      · rw [if_neg g2] at hcon
        exact Option.noConfusion hcon
  · rw [if_neg h3] at h
    by_cases h2 : containsSub bang2 text = true
    · rw [if_pos h2] at h
      injection h with hp
      subst hp
      rw [show List.replicate 2 '!' = bang2 from rfl] at hgone
      by_cases g3 : containsSub bang3 (parse_natural_language ref text).title = true
      · have hg2 := containsSub_bang2_of_bang3 g3
        rw [hgone] at hg2
        exact Bool.noConfusion hg2
      · rw [if_neg g3] at hcon
        by_cases g2 : containsSub bang2 (parse_natural_language ref text).title = true
        · rw [hgone] at g2
          exact Bool.noConfusion g2
        · rw [if_neg g2] at hcon
          exact Option.noConfusion hcon
    · rw [if_neg h2] at h
      exact Option.noConfusion h

theorem c4_amended_witness :
    (parse_natural_language refFri (str "d !!!")).priority = some 3 ∧
    (parse_natural_language refFri
      (parse_natural_language refFri (str "d !!!")).title).priority ≠ some 3 :=
  ⟨by decide,
    c4_amended_priority_not_repeated refFri refFri (str "d !!!") 3 (by decide)⟩

/-- C5 counterexample: on `"today today"` the first `today` wins, but
the substitution removes BOTH occurrences (re.sub replaces every match
of the winning pattern), so the title is empty rather than keeping the
second `today` untouched as the claim asserts. -/
theorem c5_counterexample :
    (parse_natural_language refFri (str "today today")).due_date = some refFri ∧
    (parse_natural_language refFri (str "today today")).title = [] ∧
    containsSub (str "today")
      (parse_natural_language refFri (str "today today")).title = false := by
  decide

/-- C5 (amended): at most one due-date phrase is extracted per input —
the loop is exactly first-match-wins over the ordered rules (today,
tomorrow, weekday), a rule whose computation fails contributing
nothing — and the date stage substitutes ONLY the winning rule's
pattern, applied globally to the whole original text: every whole-word
case-insensitive occurrence of the winning pattern is removed,
including repeated occurrences of the matched phrase, so that
re-searching the substituted text for the winning pattern finds no
match; phrases matching only other rules' patterns survive the date
stage, though the later tag and priority stages may remove or re-form
phrases in the final title (as in `parse("today #tomorrow")`, whose
title is empty). -/
theorem c5_amended_first_match_global_subst (ref : Date) (text : List Char) :
    (runDateRules ref text date_patterns
      = match firstMatchingRule ref text date_patterns with
        | some (alts, d) => (some d, stripWS (subWord alts text))
        | none => (none, stripWS text)) ∧
    (∀ alts d, firstMatchingRule ref text date_patterns = some (alts, d) →
      searchWord alts none (subWord alts text) = none) ∧
    (parse_natural_language ref (str "today today")).due_date = some ref ∧
    (parse_natural_language ref (str "today today")).title = [] ∧
    (parse_natural_language ref (str "today tomorrow")).due_date = some ref ∧
    (parse_natural_language ref (str "today tomorrow")).title
      = str "tomorrow" ∧
    (parse_natural_language ref (str "today #tomorrow")).due_date = some ref ∧
    (parse_natural_language ref (str "today #tomorrow")).title = [] := by
  refine ⟨runDateRules_eq_firstMatchingRule ref text date_patterns, ?_,
    rfl, rfl, rfl, rfl, rfl, rfl⟩
  intro alts d h
  have hmem := firstMatchingRule_mem ref text date_patterns alts d h
  have halts : altsLowerWord alts = true := by
    simp only [date_patterns, List.map_cons, List.map_nil, List.mem_cons,
      List.not_mem_nil, or_false] at hmem
    rcases hmem with rfl | rfl | rfl
    · decide
    · decide
    · decide
  exact subWord_no_match halts text

theorem c5_amended_witness :
    firstMatchingRule refFri (str "today today") date_patterns
      = some ([str "today"], refFri) ∧
    searchWord [str "today"] none
      (subWord [str "today"] (str "today today")) = none :=
  ⟨by decide,
    (c5_amended_first_match_global_subst refFri (str "today today")).2.1
      [str "today"] refFri (by decide)⟩

/-- C6 counterexample: on `"#today"` the date stage strips `today`
(leaving `#` in the title), yet the tag stage still extracts the tag
`today`, because it detects markers in the original text rather than in
the residual text, contradicting the claimed pipeline behaviour. -/
theorem c6_counterexample :
    (parse_natural_language refFri (str "#today")).due_date = some refFri ∧
    (parse_natural_language refFri (str "#today")).tags = some [str "today"] ∧
    (parse_natural_language refFri (str "#today")).title = str "#" := by
  decide

/-- C6 (amended): tag detection and the priority tests read the
ORIGINAL input text, not the residual text of the previous stage; only
the removals apply to the residual title.  Hence characters consumed by
an earlier stage can still be detected by a later one: parsing
`"#today"` yields both a due date and the tag `today`. -/
theorem c6_amended_detection_on_original (ref : Date) (text : List Char) :
    ((parse_natural_language ref text).tags
      = (if (findTags text).isEmpty then none else some (findTags text))) ∧
    ((parse_natural_language ref text).priority
      = (if containsSub bang3 text then some 3
         else if containsSub bang2 text then some 2 else none)) ∧
    (parse_natural_language ref (str "#today")).due_date = some ref ∧
    (parse_natural_language ref (str "#today")).tags = some [str "today"] :=
  ⟨rfl, rfl, rfl, rfl⟩

/-- C7: priority precedence and removal.  If `!!!` occurs in the input,
priority is 3 and the title contains no `!!!`; otherwise if `!!`
occurs, priority is 2 and the title contains no `!!`; otherwise
priority is absent.  In particular `parse("Urgent !!!")` gives title
`"Urgent"` and priority 3, never 2. -/
theorem c7_priority_precedence (ref : Date) (text : List Char) :
    (containsSub bang3 text = true →
      (parse_natural_language ref text).priority = some 3 ∧
      containsSub bang3 (parse_natural_language ref text).title = false) ∧
    (containsSub bang3 text = false → containsSub bang2 text = true →
      (parse_natural_language ref text).priority = some 2 ∧
      containsSub bang2 (parse_natural_language ref text).title = false) ∧
    (containsSub bang3 text = false → containsSub bang2 text = false →
      (parse_natural_language ref text).priority = none) ∧
    parse_natural_language ref (str "Urgent !!!") =
      { title := str "Urgent", priority := some 3 } := by
  refine ⟨?_, ?_, ?_, rfl⟩
  · intro h3
    refine ⟨by rw [parse_priority, if_pos h3], ?_⟩
    rw [parse_title, stage3Title, if_pos h3]
    exact containsSub_stripWS_false (replaceAll_bang3_no_occ _)
  · intro h3 h2
    refine ⟨by rw [parse_priority, if_neg (by simp [h3]), if_pos h2], ?_⟩
    rw [parse_title, stage3Title, if_neg (by simp [h3]), if_pos h2]
    exact containsSub_stripWS_false (replaceAll_bang2_no_occ _)
  · intro h3 h2
    rw [parse_priority, if_neg (by simp [h3]), if_neg (by simp [h2])]

theorem c7_witness :
    (parse_natural_language refFri (str "Urgent !!!")).priority = some 3 ∧
    containsSub bang3 (parse_natural_language refFri (str "Urgent !!!")).title
      = false :=
  (c7_priority_precedence refFri (str "Urgent !!!")).1 (by decide)

/-- C8 counterexample: the claim's removal clause fails at the
observable title: on `"#b #!!b"` the tag `b` is collected and the
hashtag matches are removed from the working text, but the later
priority removal re-forms a hashtag, so the returned title `"#b"`
still contains a hashtag match. -/
theorem c8_counterexample :
    (parse_natural_language refFri (str "#b #!!b")).tags = some [str "b"] ∧
    (parse_natural_language refFri (str "#b #!!b")).title = str "#b" ∧
    findTags (parse_natural_language refFri (str "#b #!!b")).title
      = [str "b"] := by
  decide

/-- C8 (amended): tag collection is exhaustive on the original text —
every maximal hash-plus-word-characters match is collected
case-sensitively, left to right, without the hash, duplicates preserved,
each collected tag a nonempty run of word characters; with zero matches
`tags` is absent and the tag stage leaves the working text unchanged.
The tag-stage substitution removes every hashtag match from the working
title it is applied to — re-scanning its output finds no hashtag
match — but a later stage's removal can re-form a hashtag in the final
title, as in `parse("#b #!!b")` whose title is `"#b"`. -/
theorem c8_amended_tags_exhaustive (ref : Date) (text : List Char) :
    ((findTags text).isEmpty = true →
      (parse_natural_language ref text).tags = none) ∧
    ((findTags text).isEmpty = false →
      (parse_natural_language ref text).tags = some (findTags text)) ∧
    (∀ t ∈ findTags text, t ≠ [] ∧ ∀ c ∈ t, isWordChar c = true) ∧
    ((findTags text).isEmpty = true →
      ∀ t1 : List Char, stage2Title text t1 = t1) ∧
    (∀ s : List Char, findTags (subTags s) = []) ∧
    parse_natural_language ref (str "Buy groceries #shopping #food") =
      { title := str "Buy groceries",
        tags := some [str "shopping", str "food"] } ∧
    (parse_natural_language ref (str "#go #go")).tags
      = some [str "go", str "go"] := by
  refine ⟨?_, ?_, findTags_wordchars text, ?_, findTags_subTags, rfl, rfl⟩
  · intro h
    rw [parse_tags, if_pos h]
  · intro h
    rw [parse_tags, if_neg (by simp [h])]
  · intro h t1
    rw [stage2Title, if_pos h]

theorem c8_amended_witness :
    (findTags (str "x #a")).isEmpty = false ∧
    (parse_natural_language refFri (str "x #a")).tags
      = some (findTags (str "x #a")) :=
  ⟨by decide, (c8_amended_tags_exhaustive refFri (str "x #a")).2.1 (by decide)⟩

/-- C9: when the reference date is the last day of its month, the
`tomorrow` rule matches but its naive day increment fails; the rule is
abandoned locally (no due_date, phrase kept in the title) and the call
still returns normally. -/
theorem c9_month_end_recovery (ref : Date)
    (h : ref.day = daysInMonth ref.year ref.month) :
    parse_natural_language ref (str "tomorrow") = { title := str "tomorrow" } := by
  have hcond : ¬(1 ≤ ref.day + 1 ∧ ref.day + 1 ≤ daysInMonth ref.year ref.month) := by
    rw [h]
    omega
  have hrep : dateReplaceDay ref (ref.day + 1) = none := by
    unfold dateReplaceDay
    rw [if_neg hcond]
  have h1 : searchWord [str "today"] none (str "tomorrow") = none := by decide
  have h2 : searchWord [str "tomorrow"] none (str "tomorrow")
      = some (str "tomorrow") := by decide
  have h3 : searchWord weekdayNames none (str "tomorrow") = none := by decide
  have hrd : runDateRules ref (str "tomorrow") date_patterns
      = (none, str "tomorrow") := by
    simp only [date_patterns, runDateRules, callable_if, h1, h2, h3,
      tomorrowF, DateFunc.callNoArgs, hrep]
    decide
  have hshape : parse_natural_language ref (str "tomorrow") =
      { title := stage3Title (str "tomorrow")
          (stage2Title (str "tomorrow")
            (runDateRules ref (str "tomorrow") date_patterns).2)
        due_date := (runDateRules ref (str "tomorrow") date_patterns).1
        priority := if containsSub bang3 (str "tomorrow") then some 3
          else if containsSub bang2 (str "tomorrow") then some 2 else none
        tags := if (findTags (str "tomorrow")).isEmpty then none
          else some (findTags (str "tomorrow")) } := rfl
  rw [hshape, hrd]
  decide

theorem c9_witness :
    (⟨2024, 3, 31⟩ : Date).day
      = daysInMonth (⟨2024, 3, 31⟩ : Date).year (⟨2024, 3, 31⟩ : Date).month ∧
    parse_natural_language ⟨2024, 3, 31⟩ (str "tomorrow") =
      { title := str "tomorrow" } :=
  ⟨by decide, c9_month_end_recovery ⟨2024, 3, 31⟩ (by decide)⟩

/-- C10: on any input consisting only of whitespace (the empty string
included), `parse` returns an empty title with no due_date, priority or
tags, without raising. -/
theorem c10_whitespace_input (ref : Date) (text : List Char)
    (h : ∀ c ∈ text, c.isWhitespace = true) :
    parse_natural_language ref text = { title := [] } := by
  have hto : searchWord [str "today"] none text = none :=
    searchWord_ws_none (by decide) text h none
  have htm : searchWord [str "tomorrow"] none text = none :=
    searchWord_ws_none (by decide) text h none
  have hwk : searchWord weekdayNames none text = none :=
    searchWord_ws_none (by decide) text h none
  have hrd : runDateRules ref text date_patterns = (none, stripWS text) := by
    simp only [date_patterns, runDateRules, hto, htm, hwk]
  have hst : stripWS text = [] := stripWS_ws text h
  have hft : findTags text = [] := findTags_ws text h
  have hb3 : containsSub bang3 text = false := containsSub_bang_ws text h ['!', '!']
  have hb2 : containsSub bang2 text = false := containsSub_bang_ws text h ['!']
  have hshape : parse_natural_language ref text =
      { title := stage3Title text
          (stage2Title text (runDateRules ref text date_patterns).2)
        due_date := (runDateRules ref text date_patterns).1
        priority := if containsSub bang3 text then some 3
          else if containsSub bang2 text then some 2 else none
        tags := if (findTags text).isEmpty then none
          else some (findTags text) } := rfl
  rw [hshape, hrd]
  simp [stage2Title, stage3Title, hst, hft, hb3, hb2]

theorem c10_witness :
    (∀ c ∈ str " ", c.isWhitespace = true) ∧
    parse_natural_language refFri (str " ") = { title := [] } :=
  ⟨by decide, c10_whitespace_input refFri (str " ") (by decide)⟩

end Taskflow
